import Mathlib

/-!
Verification of the ems-flasher cartridge header validator and bounded
streaming transfer engine (src/main.c) against its natural-language
specification.

The C program is shallowly embedded: byte buffers become functions
`Nat → Nat` (byte value at each offset), device contents become a function
from absolute address to byte, and the two transfer loops of `main` become
fuel-indexed state-transition functions that additionally record the trace
of device reads/writes issued.

Note on `ems.h`: the constants `FROM_ROM`/`TO_ROM` and `FROM_SRAM`/`TO_SRAM`
come from `ems.h`, which is not among the given sources.  Modelled from the
spec: the two address spaces are an inductive `Space`, and `limits` maps ROM
to the bank size and SRAM to the SRAM size, exactly as the `limits[3]`
array in main.c does for indices `FROM_ROM = 1` and `FROM_SRAM = 2`.
-/

/-- The two address spaces of the cart (spec: "Space: the addressed region
kind — ROM or SRAM"). -/
inductive Space where
  | rom
  | sram
deriving DecidableEq

/-- `#define BANK_SIZE 0x400000` -/
def BANK_SIZE : Nat := 0x400000

/-- `#define SRAM_SIZE 0x020000` -/
def SRAM_SIZE : Nat := 0x020000

/-- `const int limits[3] = {0, BANK_SIZE, SRAM_SIZE};` indexed by the space
(ROM ↦ BANK_SIZE, SRAM ↦ SRAM_SIZE). -/
def limits : Space → Nat
  | Space.rom => BANK_SIZE
  | Space.sram => SRAM_SIZE

/-- Header field offsets (`enum headeroffsets` in main.c). -/
def HEADER_LOGO : Nat := 0x104

/-- `HEADER_TITLE = 0x134` -/
def HEADER_TITLE : Nat := 0x134

/-- `HEADER_ROMSIZE = 0x148` -/
def HEADER_ROMSIZE : Nat := 0x148

/-- `HEADER_CHKSUM = 0x14D` -/
def HEADER_CHKSUM : Nat := 0x14D

/-- The 0x30-byte reference logo (`const char nintylogo[0x30]` in main.c),
as unsigned byte values (the code casts each entry to `unsigned char`
before comparing). -/
def nintylogo : List Nat :=
  [0xCE, 0xED, 0x66, 0x66, 0xCC, 0x0D, 0x00, 0x0B,
   0x03, 0x73, 0x00, 0x83, 0x00, 0x0C, 0x00, 0x0D,
   0x00, 0x08, 0x11, 0x1F, 0x88, 0x89, 0x00, 0x0E,
   0xDC, 0xCC, 0x6E, 0xE6, 0xDD, 0xDD, 0xD9, 0x99,
   0xBB, 0xBB, 0x67, 0x63, 0x6E, 0x0E, 0xEC, 0xCC,
   0xDD, 0xDC, 0x99, 0x9F, 0xBB, 0xB9, 0x33, 0x3E]

/-- The logo scan loop of `header_info`:
`for(i = 0; i < 0x30; ++i) if(nintylogo[i] != buf[HEADER_LOGO + i]) break;`
returns the loop variable `i` at exit — the index of the first mismatch,
or 0x30 when the whole field matches.  The loop is expressed with a fuel
argument for structural recursion; since `i` advances by one per unit of
fuel, fuel `0x30 - i` always suffices for the loop to exit by its own
condition. -/
def logoScan (buf : Nat → Nat) : Nat → Nat → Nat
  | 0, i => i
  | fuel + 1, i =>
    if i < 0x30 then
      if nintylogo.getD i 0 = buf (HEADER_LOGO + i) then logoScan buf fuel (i + 1) else i
    else i

/-- Value of `i` after the logo scan loop, starting at 0 as the code does. -/
def logoMatchCount (buf : Nat → Nat) : Nat := logoScan buf 0x30 0

/-- The three-way classification printed by `header_info`
(`PASS` / `FAIL, but will boot on CGB` / `FAIL`); `cgbOk` is the spec's
`Partial` tier. -/
inductive LogoTier where
  | full
  | cgbOk
  | fail
deriving DecidableEq

/-- `if(i == 0x30) PASS else if(i > 0x18) partial else FAIL` in
`header_info`. -/
def logoTier (buf : Nat → Nat) : LogoTier :=
  if logoMatchCount buf = 0x30 then LogoTier.full
  else if 0x18 < logoMatchCount buf then LogoTier.cgbOk
  else LogoTier.fail

/-- The checksum accumulation loop of `header_info`:
`uint8_t calculated_chk = 0; for (i = HEADER_TITLE; i <= HEADER_CHKSUM; ++i)
calculated_chk += buf[i];` — every addition wraps modulo 256 (uint8_t), and
each `buf[i]` is an `unsigned char`, hence reduced mod 256. -/
def chkFold (buf : Nat → Nat) (l : List Nat) (acc : Nat) : Nat :=
  l.foldl (fun c i => (c + buf i % 256) % 256) acc

/-- The list of offsets summed by the checksum loop: `HEADER_TITLE` up to
and including `HEADER_CHKSUM`. -/
def chkRange : List Nat := List.range' HEADER_TITLE (HEADER_CHKSUM - HEADER_TITLE + 1)

/-- The final value of `calculated_chk` after the loop and the trailing
`calculated_chk += 25;` (again wrapping modulo 256). -/
def calculated_chk (buf : Nat → Nat) : Nat :=
  (chkFold buf chkRange 0 + 25) % 256

/-- `header_info` prints PASS exactly when `calculated_chk == 0`. -/
def checksumOk (buf : Nat → Nat) : Bool := calculated_chk buf == 0

/-- The `willboot` variable of `header_info`: starts at 2, dropped to 1 by a
partially-matching logo, to 0 by a failing logo, and to 0 by a failing
checksum (the checksum test runs after the logo test). -/
def willboot (buf : Nat → Nat) : Nat :=
  let w :=
    if logoMatchCount buf = 0x30 then 2
    else if 0x18 < logoMatchCount buf then 1
    else 0
  if checksumOk buf = true then w else 0

/-- The final `switch(willboot)` of `header_info`
(0 ↦ boots nowhere, 1 ↦ CGB only, default ↦ any system). -/
inductive BootVerdict where
  | none
  | cgbOnly
  | universal
deriving DecidableEq

/-- Composite boot verdict printed by `header_info`. -/
def bootVerdict (buf : Nat → Nat) : BootVerdict :=
  if willboot buf = 0 then BootVerdict.none
  else if willboot buf = 1 then BootVerdict.cgbOnly
  else BootVerdict.universal

/-- The ROM size decoding switch (both in `header_info` and in the read
loop): codes 0..7 give `(32 << code)` KB, 0x52/0x53/0x54 give 1152/1280/1536
KB, anything else is unrecognized. -/
def decodeRomSize (code : Nat) : Option Nat :=
  if code ≤ 7 then some ((32 <<< code) * 1024)
  else if code = 0x52 then some (1152 * 1024)
  else if code = 0x53 then some (1280 * 1024)
  else if code = 0x54 then some (1536 * 1024)
  else none

/-- State of the read loop in `main` (`MODE_READ` branch): the cursor
`offset`, the mutable bound `readuntil`, the narrow-once flag `untilset`,
plus a trace of the device reads issued (absolute address, length) and of
the buffer indices used by the bound-narrowing step. -/
structure ReadState where
  offset : Nat
  readuntil : Nat
  untilset : Bool
  reads : List (Nat × Nat)
  narrows : List Nat
deriving DecidableEq

/-- The buffer index `HEADER_ROMSIZE - (offset - blocksize)` used by the
narrowing switch, computed as in C in uint32_t arithmetic (hence the
mod 2^32); `st.offset` here is the pre-increment offset, which equals
`offset - blocksize` at the point of the access. -/
def narrowIdx (st : ReadState) : Nat :=
  (HEADER_ROMSIZE + 2 ^ 32 - st.offset % 2 ^ 32) % 2 ^ 32

/-- The byte the narrowing switch inspects: `buf[narrowIdx]`, where `buf`
holds the device bytes `[base + offset - blocksize, base + offset)` of the
just-completed read (here `st.offset` is the pre-increment offset, i.e.
`offset - blocksize`).  An index at or past `blocksize` is past the end of
the malloc'd buffer; that out-of-bounds C read yields the unconstrained
byte `garbage`. -/
def narrowByte (dev : Nat → Nat) (garbage blocksize base : Nat) (st : ReadState) : Nat :=
  if narrowIdx st < blocksize then dev (base + st.offset + narrowIdx st) else garbage

/-- One iteration of the read loop body, assuming the loop condition held:
`ems_read(space, offset + base, buf, blocksize)` (recorded in `reads`),
`offset += blocksize`, then
`if(offset >= HEADER_ROMSIZE && untilset == 0 && space == FROM_ROM)` the
switch on `buf[HEADER_ROMSIZE - (offset - blocksize)]` narrows `readuntil`
(an unrecognized code leaves it unchanged) and sets `untilset = 1`. -/
def readStep (space : Space) (dev : Nat → Nat) (garbage blocksize base : Nat)
    (st : ReadState) : ReadState :=
  if HEADER_ROMSIZE ≤ st.offset + blocksize ∧ st.untilset = false ∧ space = Space.rom then
    { offset := st.offset + blocksize,
      readuntil := (decodeRomSize (narrowByte dev garbage blocksize base st)).getD st.readuntil,
      untilset := true,
      reads := st.reads ++ [(base + st.offset, blocksize)],
      narrows := st.narrows ++ [narrowIdx st] }
  else
    { st with offset := st.offset + blocksize,
              reads := st.reads ++ [(base + st.offset, blocksize)] }

/-- The read loop `while ((int)(offset + blocksize) <= readuntil)` of
`main`, fuel-indexed (each unit of fuel allows one iteration; within the
loop all quantities stay far below 2^31, so the loop condition is plain
natural-number comparison). -/
def readLoop (space : Space) (dev : Nat → Nat) (garbage blocksize base : Nat) :
    Nat → ReadState → ReadState
  | 0, st => st
  | fuel + 1, st =>
    if st.offset + blocksize ≤ st.readuntil then
      readLoop space dev garbage blocksize base fuel
        (readStep space dev garbage blocksize base st)
    else st

/-- Initial read-loop state: `offset = 0`, `readuntil = limits[space]`,
`untilset = 0`. -/
def initReadState (space : Space) : ReadState :=
  { offset := 0, readuntil := limits space, untilset := false, reads := [], narrows := [] }

/-- The read loop has terminated: its condition `offset + blocksize <=
readuntil` is false. -/
def readDone (blocksize : Nat) (st : ReadState) : Prop :=
  st.readuntil < st.offset + blocksize

instance (blocksize : Nat) (st : ReadState) : Decidable (readDone blocksize st) := by
  unfold readDone; infer_instance

/-- State of the write loop in `main` (`MODE_WRITE` branch): the cursor and
the trace of device writes issued (absolute address, length). -/
structure WriteState where
  offset : Nat
  writes : List (Nat × Nat)
deriving DecidableEq

/-- One iteration of the write loop body: `ems_write(space, offset + base,
buf, blocksize)` then `offset += blocksize`. -/
def writeStep (blocksize base : Nat) (st : WriteState) : WriteState :=
  { offset := st.offset + blocksize, writes := st.writes ++ [(base + st.offset, blocksize)] }

/-- The write loop
`while ((int)(offset + blocksize) <= limits[space] && fread(buf, blocksize, 1, write_file) == 1)`:
`fread` returns 1 exactly when a full block is still available, i.e. when
`offset + blocksize <= size` (the loop reads the file sequentially in
lockstep with `offset`). -/
def writeLoop (space : Space) (blocksize base size : Nat) :
    Nat → WriteState → WriteState
  | 0, st => st
  | fuel + 1, st =>
    if st.offset + blocksize ≤ limits space ∧ st.offset + blocksize ≤ size then
      writeLoop space blocksize base size fuel (writeStep blocksize base st)
    else st

/-- Initial write-loop state. -/
def initWriteState : WriteState := { offset := 0, writes := [] }

/-- The write loop has terminated: its condition is false. -/
def writeDone (space : Space) (blocksize size : Nat) (st : WriteState) : Prop :=
  limits space < st.offset + blocksize ∨ size < st.offset + blocksize

instance (space : Space) (blocksize size : Nat) (st : WriteState) :
    Decidable (writeDone space blocksize size st) := by
  unfold writeDone; infer_instance

/-- The `MODE_WRITE` branch of `main` around the loop: after obtaining the
file `size` via ftell, `err(1, ...)` (fatal, non-zero exit, before any
`ems_write`) when `size > 4*1024*1024 && space == TO_ROM`, else when
`size > 128*1024 && space == TO_SRAM`; otherwise the transfer loop runs.
Result: (exit-ok flag, trace of device writes). -/
def emsWriteSession (space : Space) (blocksize base size fuel : Nat) :
    Bool × List (Nat × Nat) :=
  if 4 * 1024 * 1024 < size ∧ space = Space.rom then (false, [])
  else if 128 * 1024 < size ∧ space = Space.sram then (false, [])
  else (true, (writeLoop space blocksize base size fuel initWriteState).writes)

/-- `tolower` of the C library, on ASCII byte values (uppercase letters map
down by 32, everything else is unchanged). -/
def tolower (c : Nat) : Nat := if 65 ≤ c ∧ c ≤ 90 then c + 32 else c

/-- The space auto-detection of `main` (run when no `--save`/`--rom` was
forced and a filename is present):
`namelen = strlen(file)`, then
`file[namelen - 4] == '.' && tolower(file[namelen - 3]) == 's' && ...`.
`namelen` has type `size_t`, so `namelen - 4` wraps modulo 2^64; an access
whose index is outside the string is an out-of-bounds read, modelled as
`none` (undefined). The `&&` chain short-circuits exactly as in C. -/
def autodetect_space (file : List Nat) : Option Space :=
  let namelen := file.length
  match file[(namelen + 2 ^ 64 - 4) % 2 ^ 64]? with
  | none => none
  | some c0 =>
    if c0 = 46 then
      match file[(namelen + 2 ^ 64 - 3) % 2 ^ 64]? with
      | none => none
      | some c1 =>
        if tolower c1 = 115 then
          match file[(namelen + 2 ^ 64 - 2) % 2 ^ 64]? with
          | none => none
          | some c2 =>
            if tolower c2 = 97 then
              match file[(namelen + 2 ^ 64 - 1) % 2 ^ 64]? with
              | none => none
              | some c3 =>
                if tolower c3 = 118 then some Space.sram else some Space.rom
            else some Space.rom
        else some Space.rom
    else some Space.rom

/-- The checksum fold with a reduced accumulator computes the modulo-256
sum of the mapped bytes. -/
lemma chkFold_eq (buf : Nat → Nat) (l : List Nat) :
    ∀ acc : Nat, chkFold buf l (acc % 256) = (acc + (l.map (fun i => buf i % 256)).sum) % 256 := by
  induction l with
  | nil => intro acc; simp [chkFold]
  | cons a l ih =>
    intro acc
    have h1 : (acc % 256 + buf a % 256) % 256 = (acc + buf a % 256) % 256 := by omega
    simp only [chkFold, List.foldl_cons, List.map_cons, List.sum_cons] at ih ⊢
    rw [h1, ih (acc + buf a % 256)]
    congr 1
    omega

/-- Closed form of `calculated_chk`: the modulo-256 sum of the checksummed
bytes plus 25, reduced modulo 256. -/
lemma calculated_chk_eq (buf : Nat → Nat) :
    calculated_chk buf = ((chkRange.map (fun i => buf i % 256)).sum + 25) % 256 := by
  have h := chkFold_eq buf chkRange 0
  rw [Nat.zero_mod] at h
  rw [calculated_chk, h]
  omega

/-- Claim C5: for every header buffer (of byte values), `checksumOk` holds
if and only if the sum, modulo 256, of every byte from the title-field
start 0x134 through the header-checksum field 0x14D inclusive, plus the
constant 25, is 0 modulo 256. -/
theorem checksum_matches_spec (buf : Nat → Nat) (hb : ∀ i, buf i < 256) :
    checksumOk buf = true ↔ ((chkRange.map buf).sum + 25) % 256 = 0 := by
  have hmap : chkRange.map (fun i => buf i % 256) = chkRange.map buf :=
    List.map_congr_left (fun i _ => Nat.mod_eq_of_lt (hb i))
  rw [checksumOk, beq_iff_eq, calculated_chk_eq, hmap]

/-- Witness for C5 at the all-zero buffer. -/
theorem checksum_matches_spec_witness :
    (∀ i : Nat, (fun _ : Nat => (0 : Nat)) i < 256)
    ∧ (checksumOk (fun _ => 0) = true
        ↔ ((chkRange.map (fun _ => 0)).sum + 25) % 256 = 0) :=
  ⟨fun _ => by show (0 : Nat) < 256; decide,
   checksum_matches_spec (fun _ => 0) (fun _ => by show (0 : Nat) < 256; decide)⟩

/-- Replacing the value of `F` at one in-range position by `G`'s value (and
vice versa) exchanges the two range sums. -/
lemma sum_map_update (F G : Nat → Nat) (i : Nat) (hagree : ∀ j, j ≠ i → F j = G j) :
    ∀ (n a : Nat), a ≤ i → i < a + n →
      ((List.range' a n).map F).sum + G i = ((List.range' a n).map G).sum + F i := by
  intro n
  induction n with
  | zero => intro a h1 h2; omega
  | succ n ih =>
    intro a h1 h2
    rw [List.range'_succ]
    simp only [List.map_cons, List.sum_cons]
    by_cases hia : i = a
    · subst hia
      have hmap : (List.range' (i + 1) n).map F = (List.range' (i + 1) n).map G := by
        apply List.map_congr_left
        intro j hj
        have hj1 : i + 1 ≤ j := (List.mem_range'_1.mp hj).1
        exact hagree j (by omega)
      rw [hmap]
      omega
    · have hFa : F a = G a := hagree a (fun h => hia h.symm)
      have hrec := ih (a + 1) (by omega) (by omega)
      rw [hFa]
      omega

/-- Claim C8 counterexample: mutating the single byte at offset 0x135 of
the all-zero buffer from 0 to 1 (an offset inside the checksummed range
whose value changes) leaves `checksumOk` unchanged — the checksum goes from
25 to 26, both nonzero, so the claimed flip of `checksumOk` does not
happen. -/
theorem checksum_flip_counterexample :
    checksumOk (Function.update (fun _ => 0) 0x135 1) = checksumOk (fun _ => 0)
    ∧ Function.update (fun _ => 0) 0x135 1 0x135 ≠ (fun _ : Nat => (0 : Nat)) 0x135
    ∧ HEADER_TITLE ≤ 0x135 ∧ (0x135 : Nat) ≤ HEADER_CHKSUM := by
  refine ⟨by decide, by simp, by decide, by decide⟩

/-- Claim C8 (amended): mutating any single byte within the checksummed
range [0x134, 0x14D] to a different byte value always changes the computed
checksum value `calculated_chk`; consequently a passing `checksumOk` always
becomes failing — but two distinct nonzero checksum values both fail, so
the boolean `checksumOk` itself need not change. -/
theorem checksum_mutation_changes_value (buf : Nat → Nat) (i v : Nat)
    (hi1 : HEADER_TITLE ≤ i) (hi2 : i ≤ HEADER_CHKSUM)
    (hbuf : buf i < 256) (hv : v < 256) (hne : v ≠ buf i) :
    calculated_chk (Function.update buf i v) ≠ calculated_chk buf
    ∧ (checksumOk buf = true → checksumOk (Function.update buf i v) = false) := by
  have hi1' : 0x134 ≤ i := by simpa [HEADER_TITLE] using hi1
  have hi2' : i ≤ 0x14D := by simpa [HEADER_CHKSUM] using hi2
  have hrange : chkRange = List.range' 0x134 26 := by
    norm_num [chkRange, HEADER_TITLE, HEADER_CHKSUM]
  have hs : ((List.range' 0x134 26).map (fun j => Function.update buf i v j % 256)).sum
        + buf i % 256
      = ((List.range' 0x134 26).map (fun j => buf j % 256)).sum
        + Function.update buf i v i % 256 := by
    apply sum_map_update _ _ i ?hagree 26 0x134 hi1' (by omega)
    case hagree =>
      intro j hj
      simp [Function.update_noteq hj]
  have hFi : Function.update buf i v i % 256 = v := by
    simp [Function.update_same, Nat.mod_eq_of_lt hv]
  have hGi : buf i % 256 = buf i := Nat.mod_eq_of_lt hbuf
  rw [hFi, hGi] at hs
  have e1 : calculated_chk (Function.update buf i v)
      = (((List.range' 0x134 26).map (fun j => Function.update buf i v j % 256)).sum + 25) % 256 := by
    rw [calculated_chk_eq, hrange]
  have e2 : calculated_chk buf
      = (((List.range' 0x134 26).map (fun j => buf j % 256)).sum + 25) % 256 := by
    rw [calculated_chk_eq, hrange]
  have hneq : calculated_chk (Function.update buf i v) ≠ calculated_chk buf := by
    rw [e1, e2]
    intro heq
    omega
  refine ⟨hneq, ?_⟩
  intro hok
  have h0 : calculated_chk buf = 0 := by simpa [checksumOk] using hok
  have h1 : calculated_chk (Function.update buf i v) ≠ 0 := by
    rw [← h0]
    exact hneq
  simp [checksumOk, h1]

/-- Witness for the amended C8 at a concrete buffer and mutation. -/
theorem checksum_mutation_witness :
    calculated_chk (Function.update (fun _ => 0) 0x140 7) ≠ calculated_chk (fun _ => 0)
    ∧ (checksumOk (fun _ => 0) = true
        → checksumOk (Function.update (fun _ => 0) 0x140 7) = false) :=
  checksum_mutation_changes_value (fun _ => 0) 0x140 7
    (by decide) (by decide) (by decide) (by decide) (by decide)

/-- Specification of the logo scan loop: the result is at least the start
index, at most 0x30 when started within bounds, every index below the
result matches the reference pattern, and a result below 0x30 points at a
mismatching byte. -/
lemma logoScan_spec (buf : Nat → Nat) :
    ∀ (fuel i : Nat), 0x30 ≤ i + fuel →
      i ≤ logoScan buf fuel i
      ∧ (i ≤ 0x30 → logoScan buf fuel i ≤ 0x30)
      ∧ (∀ j, i ≤ j → j < logoScan buf fuel i → nintylogo.getD j 0 = buf (HEADER_LOGO + j))
      ∧ (logoScan buf fuel i < 0x30 →
          nintylogo.getD (logoScan buf fuel i) 0 ≠ buf (HEADER_LOGO + logoScan buf fuel i)) := by
  intro fuel
  induction fuel with
  | zero =>
    intro i h
    simp only [logoScan]
    refine ⟨Nat.le_refl i, fun h' => h', fun j h1 h2 => absurd h2 (by omega),
      fun h' => absurd h' (by omega)⟩
  | succ fuel ih =>
    intro i h
    simp only [logoScan]
    by_cases h1 : i < 0x30
    · by_cases h2 : nintylogo.getD i 0 = buf (HEADER_LOGO + i)
      · simp only [h1, if_true, h2, if_true]
        obtain ⟨ig, il, im, is⟩ := ih (i + 1) (by omega)
        refine ⟨by omega, fun _ => il (by omega), ?_, is⟩
        intro j hj1 hj2
        rcases Nat.eq_or_lt_of_le hj1 with rfl | hj
        · exact h2
        · exact im j (by omega) hj2
      · simp only [h1, if_true, h2, if_false]
        refine ⟨Nat.le_refl i, fun h' => h', fun j hj1 hj2 => absurd hj2 (by omega), fun _ => h2⟩
    · simp only [h1, if_false]
      refine ⟨Nat.le_refl i, fun h' => h', fun j hj1 hj2 => absurd hj2 (by omega),
        fun h' => h'.elim⟩

/-- `logoMatchCount` counts matched leading logo bytes, stopping at the
first mismatch. -/
lemma logoMatchCount_spec (buf : Nat → Nat) :
    logoMatchCount buf ≤ 0x30
    ∧ (∀ j, j < logoMatchCount buf → nintylogo.getD j 0 = buf (HEADER_LOGO + j))
    ∧ (logoMatchCount buf < 0x30 →
        nintylogo.getD (logoMatchCount buf) 0 ≠ buf (HEADER_LOGO + logoMatchCount buf)) := by
  obtain ⟨hg, hl, hm, hs⟩ := logoScan_spec buf 0x30 0 (by omega)
  exact ⟨hl (by omega), fun j hj => hm j (Nat.zero_le j) hj, hs⟩

/-- k is the index of the first byte of the logo field differing from the
reference pattern. -/
def firstLogoMismatch (buf : Nat → Nat) (k : Nat) : Prop :=
  k < 0x30 ∧ nintylogo.getD k 0 ≠ buf (HEADER_LOGO + k)
  ∧ ∀ j, j < k → nintylogo.getD j 0 = buf (HEADER_LOGO + j)

instance (buf : Nat → Nat) (k : Nat) : Decidable (firstLogoMismatch buf k) := by
  unfold firstLogoMismatch; infer_instance

/-- The logo scan stops exactly at the first mismatch. -/
lemma logoMatchCount_eq_first (buf : Nat → Nat) (k : Nat) (hk : firstLogoMismatch buf k) :
    logoMatchCount buf = k := by
  obtain ⟨hk30, hkne, hkall⟩ := hk
  obtain ⟨hle, hmat, hstop⟩ := logoMatchCount_spec buf
  rcases Nat.lt_trichotomy (logoMatchCount buf) k with h | h | h
  · exact absurd (hkall _ h) (hstop (by omega))
  · exact h
  · exact absurd (hmat k h) hkne

/-- With no mismatch at all, the scan runs to 0x30. -/
lemma logoMatchCount_eq_full (buf : Nat → Nat)
    (hall : ∀ j, j < 0x30 → nintylogo.getD j 0 = buf (HEADER_LOGO + j)) :
    logoMatchCount buf = 0x30 := by
  obtain ⟨hle, hmat, hstop⟩ := logoMatchCount_spec buf
  by_contra hne
  exact absurd (hall _ (by omega)) (hstop (by omega))

/-- Claim C6: the logo check is a prefix scan stopped at the first
differing byte; with k the index of the first mismatch, the tier is Full
iff there is no mismatch, Partial (`cgbOk`) iff 0x18 < k < 0x30, and Fail
iff k ≤ 0x18 — so a buffer diverging only after byte 0x18 is Partial, not
Full. -/
theorem logo_tier_characterization (buf : Nat → Nat) :
    (logoTier buf = LogoTier.full
      ↔ ∀ j, j < 0x30 → nintylogo.getD j 0 = buf (HEADER_LOGO + j))
    ∧ ∀ k, firstLogoMismatch buf k →
        logoTier buf ≠ LogoTier.full
        ∧ (logoTier buf = LogoTier.cgbOk ↔ 0x18 < k ∧ k < 0x30)
        ∧ (logoTier buf = LogoTier.fail ↔ k ≤ 0x18) := by
  obtain ⟨hle, hmat, hstop⟩ := logoMatchCount_spec buf
  constructor
  · constructor
    · intro hfull j hj
      by_cases hcnt : logoMatchCount buf = 0x30
      · exact hmat j (by omega)
      · exfalso
        rw [logoTier, if_neg hcnt] at hfull
        split at hfull <;> exact LogoTier.noConfusion hfull
    · intro hall
      rw [logoTier, if_pos (logoMatchCount_eq_full buf hall)]
  · intro k hk
    have hck : logoMatchCount buf = k := logoMatchCount_eq_first buf k hk
    have hk30 : k < 0x30 := hk.1
    rw [logoTier, hck, if_neg (by omega)]
    by_cases h18 : 0x18 < k
    · rw [if_pos h18]
      refine ⟨by intro h; exact LogoTier.noConfusion h, ?_, ?_⟩
      · exact ⟨fun _ => ⟨h18, hk30⟩, fun _ => rfl⟩
      · exact ⟨fun h => LogoTier.noConfusion h, fun h => absurd h (by omega)⟩
    · rw [if_neg h18]
      refine ⟨by intro h; exact LogoTier.noConfusion h, ?_, ?_⟩
      · exact ⟨fun h => LogoTier.noConfusion h, fun h => absurd h.1 h18⟩
      · exact ⟨fun _ => by omega, fun _ => rfl⟩

/-- Witness for C6: a buffer matching the reference logo exactly on bytes
0..0x18 and diverging at index 0x19 is classified Partial. -/
theorem logo_tier_witness :
    firstLogoMismatch (fun n => if n < 0x104 + 0x19 then nintylogo.getD (n - 0x104) 0 else 999) 0x19
    ∧ logoTier (fun n => if n < 0x104 + 0x19 then nintylogo.getD (n - 0x104) 0 else 999)
        = LogoTier.cgbOk :=
  ⟨by decide,
   ((logo_tier_characterization _).2 0x19 (by decide)).2.1.mpr (by decide)⟩

/-- Claim C7: the composite boot verdict is None iff the logo tier is Fail
or the checksum fails; CgbOnly iff the logo tier is Partial and the
checksum passes; Universal iff the logo tier is Full and the checksum
passes. -/
theorem boot_verdict_characterization (buf : Nat → Nat) :
    (bootVerdict buf = BootVerdict.none
      ↔ (logoTier buf = LogoTier.fail ∨ checksumOk buf = false))
    ∧ (bootVerdict buf = BootVerdict.cgbOnly
      ↔ (logoTier buf = LogoTier.cgbOk ∧ checksumOk buf = true))
    ∧ (bootVerdict buf = BootVerdict.universal
      ↔ (logoTier buf = LogoTier.full ∧ checksumOk buf = true)) := by
  by_cases hc : checksumOk buf = true
  · by_cases h30 : logoMatchCount buf = 0x30
    · simp [bootVerdict, willboot, logoTier, hc, h30]
    · by_cases h18 : 0x18 < logoMatchCount buf
      · simp [bootVerdict, willboot, logoTier, hc, h30, h18]
      · simp [bootVerdict, willboot, logoTier, hc, h30, h18]
  · have hc' : checksumOk buf = false := by
      cases h : checksumOk buf
      · rfl
      · exact absurd h hc
    by_cases h30 : logoMatchCount buf = 0x30
    · simp [bootVerdict, willboot, logoTier, hc, hc', h30]
    · by_cases h18 : 0x18 < logoMatchCount buf
      · simp [bootVerdict, willboot, logoTier, hc, hc', h30, h18]
      · simp [bootVerdict, willboot, logoTier, hc, hc', h30, h18]

/-- Every recognized ROM-size code decodes to a size between 32 KiB and the
4 MiB bank size. -/
lemma decodeRomSize_bounds {c s : Nat} (h : decodeRomSize c = some s) :
    32768 ≤ s ∧ s ≤ 4194304 := by
  unfold decodeRomSize at h
  split_ifs at h with h1 h2 h3 h4
  · injection h with h'
    rw [Nat.shiftLeft_eq] at h'
    have hp1 : 1 ≤ 2 ^ c := Nat.one_le_two_pow
    have hp2 : (2 : Nat) ^ c ≤ 2 ^ 7 := Nat.pow_le_pow_right (by omega) h1
    have : (2 : Nat) ^ 7 = 128 := by norm_num
    omega
  · injection h with h'; omega
  · injection h with h'; omega
  · injection h with h'; omega

/-- When the pre-increment offset is below `HEADER_ROMSIZE`, the uint32
index computation reduces to plain subtraction. -/
lemma narrowIdx_eq (st : ReadState) (hoff : st.offset < HEADER_ROMSIZE) :
    narrowIdx st = HEADER_ROMSIZE - st.offset := by
  have h32 : (2 : Nat) ^ 32 = 4294967296 := by norm_num
  rw [HEADER_ROMSIZE] at hoff
  rw [narrowIdx, h32, HEADER_ROMSIZE]
  omega

/-- A property preserved by every loop iteration holds at every fuel. -/
lemma readLoop_invariant (space : Space) (dev : Nat → Nat) (garbage blocksize base : Nat)
    (P : ReadState → Prop)
    (hstep : ∀ st, st.offset + blocksize ≤ st.readuntil → P st →
      P (readStep space dev garbage blocksize base st)) :
    ∀ fuel st, P st → P (readLoop space dev garbage blocksize base fuel st) := by
  intro fuel
  induction fuel with
  | zero => intro st h; exact h
  | succ n ih =>
    intro st h
    simp only [readLoop]
    by_cases hc : st.offset + blocksize ≤ st.readuntil
    · rw [if_pos hc]
      exact ih _ (hstep st hc h)
    · rw [if_neg hc]
      exact h

/-- The conjunction of facts maintained by every iteration of the read
loop. -/
def ReadInv (space : Space) (blocksize : Nat) (st : ReadState) : Prop :=
  blocksize ∣ st.offset
  ∧ st.readuntil ≤ limits space
  ∧ st.offset ≤ limits space
  ∧ (∀ p ∈ st.reads, p.2 = blocksize)
  ∧ (space = Space.rom → st.untilset = false → st.offset < HEADER_ROMSIZE)
  ∧ (blocksize ≤ 32440 → st.offset ≤ st.readuntil)

/-- One read-loop iteration preserves `ReadInv`. -/
lemma readStep_inv (space : Space) (dev : Nat → Nat) (garbage blocksize base : Nat)
    (st : ReadState) (hc : st.offset + blocksize ≤ st.readuntil)
    (h : ReadInv space blocksize st) :
    ReadInv space blocksize (readStep space dev garbage blocksize base st) := by
  obtain ⟨h1, h2, h3, h4, h5, h6⟩ := h
  rw [readStep]
  by_cases htrig : HEADER_ROMSIZE ≤ st.offset + blocksize ∧ st.untilset = false ∧ space = Space.rom
  · rw [if_pos htrig]
    obtain ⟨ht1, ht2, ht3⟩ := htrig
    have hoff : st.offset < HEADER_ROMSIZE := h5 ht3 ht2
    have hlim : limits space = 4194304 := by rw [ht3, limits, BANK_SIZE]
    unfold ReadInv
    dsimp only
    refine ⟨dvd_add h1 dvd_rfl, ?_, by omega, ?_, fun _ h' => Bool.noConfusion h', ?_⟩
    · cases hdec : decodeRomSize (narrowByte dev garbage blocksize base st) with
      | none => simp only [hdec, Option.getD_none]; exact h2
      | some s =>
        have hbd := decodeRomSize_bounds hdec
        simp only [hdec, Option.getD_some]
        omega
    · intro p hp
      rcases List.mem_append.mp hp with hp | hp
      · exact h4 p hp
      · simp only [List.mem_singleton] at hp
        rw [hp]
    · intro hb32
      cases hdec : decodeRomSize (narrowByte dev garbage blocksize base st) with
      | none => simp only [hdec, Option.getD_none]; exact hc
      | some s =>
        have hbd := decodeRomSize_bounds hdec
        simp only [hdec, Option.getD_some]
        rw [HEADER_ROMSIZE] at hoff
        omega
  · rw [if_neg htrig]
    unfold ReadInv
    dsimp only
    refine ⟨dvd_add h1 dvd_rfl, h2, by omega, ?_, ?_, fun _ => hc⟩
    · intro p hp
      rcases List.mem_append.mp hp with hp | hp
      · exact h4 p hp
      · simp only [List.mem_singleton] at hp
        rw [hp]
    · intro hrom huntil
      by_contra hge
      exact htrig ⟨by omega, huntil, hrom⟩

/-- `ReadInv` holds at every state reached by the read loop from its
initial state. -/
lemma readLoop_ReadInv (space : Space) (dev : Nat → Nat) (garbage blocksize base fuel : Nat) :
    ReadInv space blocksize (readLoop space dev garbage blocksize base fuel (initReadState space)) := by
  apply readLoop_invariant space dev garbage blocksize base _
    (fun st hc h => readStep_inv space dev garbage blocksize base st hc h)
  unfold ReadInv initReadState
  dsimp only
  refine ⟨dvd_zero blocksize, Nat.le_refl _, Nat.zero_le _, ?_, ?_, fun _ => Nat.zero_le _⟩
  · intro p hp
    exact absurd hp (List.not_mem_nil p)
  · intro _ _
    rw [HEADER_ROMSIZE]
    omega

/-- A property preserved by every write-loop iteration holds at every
fuel. -/
lemma writeLoop_invariant (space : Space) (blocksize base size : Nat)
    (P : WriteState → Prop)
    (hstep : ∀ st, st.offset + blocksize ≤ limits space → st.offset + blocksize ≤ size →
      P st → P (writeStep blocksize base st)) :
    ∀ fuel st, P st → P (writeLoop space blocksize base size fuel st) := by
  intro fuel
  induction fuel with
  | zero => intro st h; exact h
  | succ n ih =>
    intro st h
    simp only [writeLoop]
    by_cases hc : st.offset + blocksize ≤ limits space ∧ st.offset + blocksize ≤ size
    · rw [if_pos hc]
      exact ih _ (hstep st hc.1 hc.2 h)
    · rw [if_neg hc]
      exact h

/-- Invariants of the write loop: the cursor stays a multiple of the block
size and within the space limit, and every write has length exactly
`blocksize`. -/
lemma writeLoop_inv (space : Space) (blocksize base size fuel : Nat) :
    blocksize ∣ (writeLoop space blocksize base size fuel initWriteState).offset
    ∧ (writeLoop space blocksize base size fuel initWriteState).offset ≤ limits space
    ∧ ∀ p ∈ (writeLoop space blocksize base size fuel initWriteState).writes, p.2 = blocksize := by
  apply writeLoop_invariant space blocksize base size
    (fun st => blocksize ∣ st.offset ∧ st.offset ≤ limits space ∧ ∀ p ∈ st.writes, p.2 = blocksize)
  · intro st hc1 hc2 h
    obtain ⟨h1, h2, h3⟩ := h
    unfold writeStep
    dsimp only
    refine ⟨dvd_add h1 dvd_rfl, hc1, ?_⟩
    intro p hp
    rcases List.mem_append.mp hp with hp | hp
    · exact h3 p hp
    · simp only [List.mem_singleton] at hp
      rw [hp]
  · unfold initWriteState
    dsimp only
    exact ⟨dvd_zero blocksize, Nat.zero_le _, fun p hp => absurd hp (List.not_mem_nil p)⟩

/-- Claim C2 (amended): for every completed read or write session the final
offset is an exact multiple of the block size, every device read and write
has length exactly `blocksize`, and the final offset never exceeds the
nominal space limit; for reads the final offset additionally stays within
the possibly-narrowed `readuntil` whenever `blocksize ≤ 32440`
(= 32768 − 0x148).  With a larger block size the single block that triggers
narrowing can itself already end past the just-narrowed bound (see the
counterexample `transfer_overshoot_narrowed_bound`). -/
theorem transfer_loop_invariants (space : Space) (dev : Nat → Nat)
    (garbage blocksize base fuelR size fuelW : Nat) (_hb : 1 ≤ blocksize)
    (_hr : readDone blocksize (readLoop space dev garbage blocksize base fuelR (initReadState space)))
    (_hw : writeDone space blocksize size (writeLoop space blocksize base size fuelW initWriteState)) :
    (blocksize ∣ (readLoop space dev garbage blocksize base fuelR (initReadState space)).offset
      ∧ (readLoop space dev garbage blocksize base fuelR (initReadState space)).offset ≤ limits space
      ∧ (∀ p ∈ (readLoop space dev garbage blocksize base fuelR (initReadState space)).reads,
          p.2 = blocksize)
      ∧ (blocksize ≤ 32440 →
          (readLoop space dev garbage blocksize base fuelR (initReadState space)).offset
            ≤ (readLoop space dev garbage blocksize base fuelR (initReadState space)).readuntil))
    ∧ (blocksize ∣ (writeLoop space blocksize base size fuelW initWriteState).offset
      ∧ (writeLoop space blocksize base size fuelW initWriteState).offset ≤ limits space
      ∧ ∀ p ∈ (writeLoop space blocksize base size fuelW initWriteState).writes,
          p.2 = blocksize) := by
  obtain ⟨r1, r2, r3, r4, r5, r6⟩ := readLoop_ReadInv space dev garbage blocksize base fuelR
  exact ⟨⟨r1, r3, r4, r6⟩, writeLoop_inv space blocksize base size fuelW⟩

/-- Witness for the amended C2 at a concrete completed session. -/
theorem transfer_loop_invariants_witness :
    4096 ∣ (readLoop Space.rom (fun _ => 0) 0 4096 0 10 (initReadState Space.rom)).offset
    ∧ (readLoop Space.rom (fun _ => 0) 0 4096 0 10 (initReadState Space.rom)).offset
        ≤ (readLoop Space.rom (fun _ => 0) 0 4096 0 10 (initReadState Space.rom)).readuntil :=
  ⟨(transfer_loop_invariants Space.rom (fun _ => 0) 0 4096 0 10 8192 5
      (by decide) (by decide) (by decide)).1.1,
   (transfer_loop_invariants Space.rom (fun _ => 0) 0 4096 0 10 8192 5
      (by decide) (by decide) (by decide)).1.2.2.2 (by decide)⟩

/-- Claim C2 counterexample: a ROM read with `blocksize = 65536` over a
device whose size byte is 0 completes (loop condition false) with final
offset 65536 but narrowed `readuntil` 32768 — the final offset exceeds the
possibly-narrowed upper bound, refuting the claim as stated. -/
theorem transfer_overshoot_narrowed_bound :
    readDone 65536 (readLoop Space.rom (fun _ => 0) 0 65536 0 2 (initReadState Space.rom))
    ∧ (readLoop Space.rom (fun _ => 0) 0 65536 0 2 (initReadState Space.rom)).offset = 65536
    ∧ (readLoop Space.rom (fun _ => 0) 0 65536 0 2 (initReadState Space.rom)).readuntil = 32768
    ∧ ¬ (readLoop Space.rom (fun _ => 0) 0 65536 0 2 (initReadState Space.rom)).offset
        ≤ (readLoop Space.rom (fun _ => 0) 0 65536 0 2 (initReadState Space.rom)).readuntil := by
  decide

/-- Claim C3: a ROM read with block size 4096 over a device whose byte at
0x148 is 0x00 narrows the bound to 32768 right after the first block, and
the session completes after exactly 8 blocks of length 4096 with final
offset 32768 (fuel 20 > 8 shows the loop has stopped by its own
condition). -/
theorem rom_read_32k_scenario :
    (readLoop Space.rom (fun _ => 0) 0 4096 0 1 (initReadState Space.rom)).readuntil = 32768
    ∧ (readLoop Space.rom (fun _ => 0) 0 4096 0 1 (initReadState Space.rom)).offset = 4096
    ∧ (readLoop Space.rom (fun _ => 0) 0 4096 0 20 (initReadState Space.rom)).offset = 32768
    ∧ (readLoop Space.rom (fun _ => 0) 0 4096 0 20 (initReadState Space.rom)).reads.length = 8
    ∧ (∀ p ∈ (readLoop Space.rom (fun _ => 0) 0 4096 0 20 (initReadState Space.rom)).reads,
        p.2 = 4096)
    ∧ readDone 4096 (readLoop Space.rom (fun _ => 0) 0 4096 0 20 (initReadState Space.rom)) := by
  decide

/-- Once `untilset` is set, later iterations change neither the bound nor
the narrowing trace. -/
lemma readLoop_stable (space : Space) (dev : Nat → Nat) (garbage blocksize base : Nat) :
    ∀ fuel (st : ReadState), st.untilset = true →
      (readLoop space dev garbage blocksize base fuel st).readuntil = st.readuntil
      ∧ (readLoop space dev garbage blocksize base fuel st).narrows = st.narrows := by
  intro fuel
  induction fuel with
  | zero => intro st h; exact ⟨rfl, rfl⟩
  | succ n ih =>
    intro st h
    simp only [readLoop]
    by_cases hc : st.offset + blocksize ≤ st.readuntil
    · rw [if_pos hc]
      have hstep : readStep space dev garbage blocksize base st
          = { st with offset := st.offset + blocksize,
                      reads := st.reads ++ [(base + st.offset, blocksize)] } := by
        rw [readStep, if_neg]
        intro hcon
        rw [h] at hcon
        exact Bool.noConfusion hcon.2.1
      rw [hstep]
      exact ih _ h
    · rw [if_neg hc]
      exact ⟨rfl, rfl⟩

/-- When the size byte at device offset `base + 0x148` carries an
unrecognized code (and so does the out-of-bounds garbage byte), the bound
is never narrowed: it stays the nominal space limit forever. -/
lemma readLoop_unrecognized (space : Space) (dev : Nat → Nat) (garbage blocksize base : Nat)
    (hdev : decodeRomSize (dev (base + HEADER_ROMSIZE)) = none)
    (hg : decodeRomSize garbage = none) (fuel : Nat) :
    (readLoop space dev garbage blocksize base fuel (initReadState space)).readuntil
      = limits space := by
  have hmain := readLoop_invariant space dev garbage blocksize base
    (fun st => st.readuntil = limits space
      ∧ (space = Space.rom → st.untilset = false → st.offset < HEADER_ROMSIZE))
    ?step fuel (initReadState space) ?init
  · exact hmain.1
  case init =>
    unfold initReadState
    dsimp only
    exact ⟨rfl, fun _ _ => by rw [HEADER_ROMSIZE]; omega⟩
  case step =>
    intro st hc h
    obtain ⟨h1, h2⟩ := h
    rw [readStep]
    by_cases htrig : HEADER_ROMSIZE ≤ st.offset + blocksize ∧ st.untilset = false ∧ space = Space.rom
    · rw [if_pos htrig]
      obtain ⟨ht1, ht2, ht3⟩ := htrig
      have hoff : st.offset < HEADER_ROMSIZE := h2 ht3 ht2
      have hbyte : decodeRomSize (narrowByte dev garbage blocksize base st) = none := by
        rw [narrowByte]
        by_cases hin : narrowIdx st < blocksize
        · rw [if_pos hin]
          have hidx := narrowIdx_eq st hoff
          have : base + st.offset + narrowIdx st = base + HEADER_ROMSIZE := by
            rw [hidx]
            rw [HEADER_ROMSIZE] at hoff ⊢
            omega
          rw [this]
          exact hdev
        · rw [if_neg hin]
          exact hg
      dsimp only
      rw [hbyte]
      exact ⟨h1, fun _ h' => Bool.noConfusion h'⟩
    · rw [if_neg htrig]
      dsimp only
      refine ⟨h1, ?_⟩
      intro hrom huntil
      by_contra hge
      exact htrig ⟨by omega, huntil, hrom⟩

/-- Claim C4: the bound-narrowing step executes at most once per read
session (the narrowing trace never has more than one entry); once the flag
is set no later iteration re-examines the size byte or changes the bound;
and with an unrecognized size code the bound stays the full nominal limit
permanently. -/
theorem narrowing_at_most_once (space : Space) (dev : Nat → Nat)
    (garbage blocksize base fuel : Nat) :
    (readLoop space dev garbage blocksize base fuel (initReadState space)).narrows.length ≤ 1
    ∧ (∀ (st : ReadState) fuel2, st.untilset = true →
        (readLoop space dev garbage blocksize base fuel2 st).readuntil = st.readuntil
        ∧ (readLoop space dev garbage blocksize base fuel2 st).narrows = st.narrows)
    ∧ (decodeRomSize (dev (base + HEADER_ROMSIZE)) = none → decodeRomSize garbage = none →
        (readLoop space dev garbage blocksize base fuel (initReadState space)).readuntil
          = limits space) := by
  refine ⟨?_, fun st fuel2 h => readLoop_stable space dev garbage blocksize base fuel2 st h,
    fun hdev hg => readLoop_unrecognized space dev garbage blocksize base hdev hg fuel⟩
  have hmain := readLoop_invariant space dev garbage blocksize base
    (fun st => (st.untilset = false → st.narrows = []) ∧ st.narrows.length ≤ 1)
    ?step fuel (initReadState space) ?init
  · exact hmain.2
  case init =>
    unfold initReadState
    dsimp only
    exact ⟨fun _ => rfl, by simp⟩
  case step =>
    intro st hc h
    obtain ⟨h1, h2⟩ := h
    rw [readStep]
    by_cases htrig : HEADER_ROMSIZE ≤ st.offset + blocksize ∧ st.untilset = false ∧ space = Space.rom
    · rw [if_pos htrig]
      dsimp only
      rw [h1 htrig.2.1]
      exact ⟨fun h' => Bool.noConfusion h', by simp⟩
    · rw [if_neg htrig]
      dsimp only
      exact ⟨h1, h2⟩

/-- Witness for C4: one-bank-sized block, all-0xFF device (unrecognized
code everywhere): a single narrowing event and an unchanged bound. -/
theorem narrowing_at_most_once_witness :
    (readLoop Space.rom (fun _ => 255) 255 4194304 0 2 (initReadState Space.rom)).narrows.length ≤ 1
    ∧ (readLoop Space.rom (fun _ => 255) 255 4194304 0 2 (initReadState Space.rom)).readuntil
        = limits Space.rom :=
  ⟨(narrowing_at_most_once Space.rom (fun _ => 255) 255 4194304 0 2).1,
   (narrowing_at_most_once Space.rom (fun _ => 255) 255 4194304 0 2).2.2 (by decide) (by decide)⟩

/-- Claim C1 (code bug evidence): a ROM read with `blocksize = 8` (8
divides 0x148) reaches the trigger at post-increment offset exactly 0x148;
the just-read block covers device offsets [0x140, 0x148) and so does NOT
contain the size byte, and the buffer index used is 8 = `blocksize`, one
past the end of the malloc'd buffer.  The narrowing then consumes the
out-of-bounds garbage byte (here 0x52, giving bound 1152 KiB) even though
the device's true size byte at 0x148 (value 0) decodes to 32 KiB. -/
theorem romsize_trigger_oob :
    (readLoop Space.rom (fun _ => 0) 0x52 8 0 41 (initReadState Space.rom)).narrows = [8]
    ∧ (readLoop Space.rom (fun _ => 0) 0x52 8 0 41 (initReadState Space.rom)).offset
        = HEADER_ROMSIZE
    ∧ (readLoop Space.rom (fun _ => 0) 0x52 8 0 41 (initReadState Space.rom)).readuntil
        = 1152 * 1024
    ∧ decodeRomSize ((fun _ => (0 : Nat)) (0 + HEADER_ROMSIZE)) = some 32768 := by
  decide

/-- Claim C9: a write session whose file exceeds 4 MiB targeting ROM space,
or 128 KiB targeting SRAM space, fails fatally before issuing any device
write (no writes are recorded); otherwise the pre-flight check passes and
the transfer loop is entered. -/
theorem write_preflight_cap (space : Space) (blocksize base size fuel : Nat) :
    ((4 * 1024 * 1024 < size ∧ space = Space.rom)
        ∨ (128 * 1024 < size ∧ space = Space.sram) →
      emsWriteSession space blocksize base size fuel = (false, []))
    ∧ (¬ (4 * 1024 * 1024 < size ∧ space = Space.rom) →
        ¬ (128 * 1024 < size ∧ space = Space.sram) →
        (emsWriteSession space blocksize base size fuel).1 = true) := by
  unfold emsWriteSession
  constructor
  · rintro (h | h)
    · rw [if_pos h]
    · by_cases h1 : 4 * 1024 * 1024 < size ∧ space = Space.rom
      · rw [if_pos h1]
      · rw [if_neg h1, if_pos h]
  · intro h1 h2
    rw [if_neg h1, if_neg h2]

/-- Witness for C9: a 5 MiB ROM write is rejected with zero device
writes. -/
theorem write_preflight_cap_witness :
    emsWriteSession Space.rom 32 0 (5 * 1024 * 1024) 0 = (false, []) :=
  (write_preflight_cap Space.rom 32 0 (5 * 1024 * 1024) 0).1 (Or.inl ⟨by decide, rfl⟩)

/-- The dot character is a fixed point of `tolower`. -/
lemma tolower_dot : tolower 46 = 46 := by decide

/-- No byte other than the dot lowercases to the dot. -/
lemma tolower_eq_dot (x : Nat) : tolower x = 46 ↔ x = 46 := by
  unfold tolower
  split_ifs with h
  · constructor <;> intro h' <;> omega
  · exact Iff.rfl

/-- A list of length four is literally a four-element list. -/
lemma list_len_four {α : Type} {l : List α} (h : l.length = 4) :
    ∃ a b c d, l = [a, b, c, d] := by
  rcases l with _ | ⟨a, _ | ⟨b, _ | ⟨c, _ | ⟨d, _ | ⟨e, t⟩⟩⟩⟩⟩ <;> simp at h
  exact ⟨a, b, c, d, rfl⟩

/-- Claim C10: the filename auto-detection is well-defined only for names
of length at least 4 — for shorter names the size_t index
`namelen - 4` wraps to a value at or past the end of the string and the
read is out of bounds (modelled as `none`); for names of length at least 4
it selects SRAM exactly when the last four characters case-insensitively
equal ".sav" and ROM otherwise. -/
theorem autodetect_space_characterization (file : List Nat) (hlen : file.length < 2 ^ 64) :
    (file.length < 4 →
      file.length ≤ (file.length + 2 ^ 64 - 4) % 2 ^ 64 ∧ autodetect_space file = none)
    ∧ (4 ≤ file.length →
        (autodetect_space file = some Space.sram
          ↔ (file.drop (file.length - 4)).map tolower = [46, 115, 97, 118])
        ∧ (autodetect_space file = some Space.rom
          ↔ (file.drop (file.length - 4)).map tolower ≠ [46, 115, 97, 118])) := by
  have h64 : (2 : Nat) ^ 64 = 18446744073709551616 := by norm_num
  constructor
  · intro h4
    have hidx : (file.length + 2 ^ 64 - 4) % 2 ^ 64 = file.length + 2 ^ 64 - 4 := by
      rw [h64]
      omega
    have hge : file.length ≤ (file.length + 2 ^ 64 - 4) % 2 ^ 64 := by
      rw [hidx, h64]
      omega
    refine ⟨hge, ?_⟩
    have hnone : file[(file.length + 2 ^ 64 - 4) % 2 ^ 64]? = none := by
      apply List.getElem?_eq_none
      omega
    rw [autodetect_space]
    rw [hnone]
  · intro h4
    have hi0 : (file.length + 2 ^ 64 - 4) % 2 ^ 64 = file.length - 4 := by rw [h64]; omega
    have hi1 : (file.length + 2 ^ 64 - 3) % 2 ^ 64 = file.length - 3 := by rw [h64]; omega
    have hi2 : (file.length + 2 ^ 64 - 2) % 2 ^ 64 = file.length - 2 := by rw [h64]; omega
    have hi3 : (file.length + 2 ^ 64 - 1) % 2 ^ 64 = file.length - 1 := by rw [h64]; omega
    have hdlen : (file.drop (file.length - 4)).length = 4 := by
      rw [List.length_drop]
      omega
    obtain ⟨a, b, c, e, hde⟩ := list_len_four hdlen
    have hg : ∀ k, file[(file.length - 4) + k]? = (file.drop (file.length - 4))[k]? := by
      intro k
      rw [List.getElem?_drop]
    have h0 : file[file.length - 4]? = some a := by
      have := hg 0
      rw [hde] at this
      simpa using this
    have h1 : file[file.length - 3]? = some b := by
      have := hg 1
      rw [hde] at this
      have harith : file.length - 4 + 1 = file.length - 3 := by omega
      rw [harith] at this
      simpa using this
    have h2 : file[file.length - 2]? = some c := by
      have := hg 2
      rw [hde] at this
      have harith : file.length - 4 + 2 = file.length - 2 := by omega
      rw [harith] at this
      simpa using this
    have h3 : file[file.length - 1]? = some e := by
      have := hg 3
      rw [hde] at this
      have harith : file.length - 4 + 3 = file.length - 1 := by omega
      rw [harith] at this
      simpa using this
    rw [autodetect_space, hi0, hi1, hi2, hi3, h0, h1, h2, h3, hde]
    simp only [List.map_cons, List.map_nil]
    by_cases ha : a = 46
    · by_cases hb : tolower b = 115
      · by_cases hc : tolower c = 97
        · by_cases hev : tolower e = 118
          · simp [ha, hb, hc, hev, tolower_dot]
          · simp [ha, hb, hc, hev, tolower_dot]
        · simp [ha, hb, hc, tolower_dot]
      · simp [ha, hb, tolower_dot]
    · have hta : tolower a ≠ 46 := fun h => ha ((tolower_eq_dot a).mp h)
      simp [ha, hta]

/-- Witness for C10: the byte string of "g.SAV" resolves to SRAM
(case-insensitive suffix match). -/
theorem autodetect_space_witness :
    autodetect_space [103, 46, 83, 65, 86] = some Space.sram :=
  ((autodetect_space_characterization [103, 46, 83, 65, 86] (by decide)).2
    (by decide)).1.mpr (by decide)
